import Mathlib

/-!
Verification of the debugging bid interceptor
(`src/modules/debugging/bidInterceptor.js`).

The engine is embedded shallowly: JavaScript values become the inductive
type `JVal`, author-supplied functions inside rule definitions become Lean
functions, and the few operations that can throw a `TypeError` in the
source (property access on `null`/`undefined`, `Object.entries(null)`,
`Object.keys(null)`, calling `undefined`, `.map` on a non-array) are
modelled with `Except JsErr`.  Numbers are modelled as rationals; the
engine never performs arithmetic on them, it only copies and compares
them.  Object identity is not representable in a value model, so
`deepClone` is the identity and "unchanged" claims are proved as value
equality.

Helpers of `src/utils.js` and `modules/debugging/responses.js` are not
part of the source tree given here; they are modelled from the spec and
marked `Modelled from the spec:` in their doc comments.
-/

namespace BidInterceptor

/-- A JavaScript value: the data manipulated by the interceptor.  Author
functions are kept out of this type (they live in the spec ASTs below), so
values are pure data. -/
inductive JVal where
  | null
  | undefined
  | bool (b : Bool)
  | num (q : ℚ)
  | str (s : String)
  | arr (elems : List JVal)
  | obj (fields : List (String × JVal))

/-- The only runtime error the engine can raise: a JavaScript `TypeError`
(property access on nullish, `Object.entries(null)`, `Object.keys(null)`,
calling `undefined`, `.map` of a non-array). -/
inductive JsErr where
  | typeError
deriving Repr, DecidableEq

/-- Log events emitted while compiling rule definitions.  The source logs
human-readable messages through `this.logger`; only the channel and the
rule ordinal matter to the spec, so messages are reduced to tags. -/
inductive LogEntry where
  | errorWhen (no : Nat)
  | errorThen (no : Nat)
  | errorPaapi (no : Nat)
deriving Repr, DecidableEq

/-- JavaScript truthiness (`!!v`).  `NaN` is not modelled; no rule of the
engine produces it. -/
def truthy : JVal → Bool
  | JVal.null => false
  | JVal.undefined => false
  | JVal.bool b => b
  | JVal.num q => !(q == 0)
  | JVal.str s => !(s == "")
  | _ => true

/-- JavaScript strict equality `===` restricted to the uses in the source:
the right operand is always a scalar there (the object branch of the
matcher recursed before reaching `===`), and `obj === scalar` is `false`.
Reference equality between two objects is not representable in a value
model and is never exercised by the source's `===`. -/
def jsStrictEq : JVal → JVal → Bool
  | JVal.null, JVal.null => true
  | JVal.undefined, JVal.undefined => true
  | JVal.bool a, JVal.bool b => a == b
  | JVal.num a, JVal.num b => a == b
  | JVal.str a, JVal.str b => a == b
  | _, _ => false

/-- First binding of a key in an object's field list (JavaScript objects
have unique keys; the model permits duplicates and reads the first, which
is what every construction below maintains). -/
def lookupField : List (String × JVal) → String → Option JVal
  | [], _ => none
  | (k, v) :: fs, key => if k = key then some v else lookupField fs key

def containsKey (fs : List (String × JVal)) (k : String) : Bool :=
  (lookupField fs k).isSome

/-- Property read `v[k]` on a value already known not to be nullish (also
the semantics of an optional-chained read `v?.[k]`, since a nullish `v`
yields `undefined`).  Array reads support numeric indices and `length`;
string character reads are not modelled (unused by the engine). -/
def chainGet : JVal → String → JVal
  | JVal.obj fs, k => (lookupField fs k).getD JVal.undefined
  | JVal.arr es, k =>
      if k = "length" then JVal.num es.length
      else match k.toNat? with
           | some i => (es.get? i).getD JVal.undefined
           | none => JVal.undefined
  | _, _ => JVal.undefined

/-- Property read `v[k]`: throws a `TypeError` when `v` is nullish. -/
def jGet : JVal → String → Except JsErr JVal
  | JVal.null, _ => .error .typeError
  | JVal.undefined, _ => .error .typeError
  | v, k => .ok (chainGet v k)

/-- Optional-chained index read `v?.[i]`. -/
def optIdx : JVal → Nat → JVal
  | JVal.arr es, i => (es.get? i).getD JVal.undefined
  | _, _ => JVal.undefined

/-- Nullish coalescing `a ?? b`. -/
def coalesce : JVal → JVal → JVal
  | JVal.null, b => b
  | JVal.undefined, b => b
  | a, _ => a

/-- `Object.keys(v)` for non-nullish `v` (arrays and strings enumerate
index keys, other primitives have none). -/
def jKeysD : JVal → List String
  | JVal.obj fs => fs.map Prod.fst
  | JVal.arr es => (List.range es.length).map toString
  | JVal.str s => (List.range s.length).map toString
  | _ => []

/-- `Object.keys(v)`: throws on nullish `v`. -/
def jKeys : JVal → Except JsErr (List String)
  | JVal.null => .error .typeError
  | JVal.undefined => .error .typeError
  | v => .ok (jKeysD v)

/-- Property assignment `fs[k] = v` on a field list: overwrites the first
binding of `k` in place, otherwise appends (JavaScript key order). -/
def setKeyFields : List (String × JVal) → String → JVal → List (String × JVal)
  | [], k, v => [(k, v)]
  | (k1, v1) :: fs, k, v =>
      if k1 = k then (k1, v) :: fs else (k1, v1) :: setKeyFields fs k v

/-- Property assignment `o[k] = v` on a value known to be an object. -/
def setKey : JVal → String → JVal → JVal
  | JVal.obj fs, k, v => JVal.obj (setKeyFields fs k v)
  | w, _, _ => w

/-- Property assignment `o[k] = v` in an exception-aware context: the
source modules are strict-mode ESM, so assigning to a property of a
non-object throws. -/
def setKeyE : JVal → String → JVal → Except JsErr JVal
  | JVal.obj fs, k, v => .ok (JVal.obj (setKeyFields fs k v))
  | _, _, _ => .error .typeError

def getField (v : JVal) (k : String) : Option JVal :=
  match v with
  | JVal.obj fs => lookupField fs k
  | _ => none

def isObjV : JVal → Bool
  | JVal.obj _ => true
  | _ => false

/-! ## Deep merge

`mergeDeep` comes from `src/utils.js`, which is not part of the given
source tree. -/

mutual
/-- Modelled from the spec: the per-field behaviour of `mergeDeep` from
`src/utils.js` — "override wins on scalar conflicts; nested objects merge
field-by-field, not wholesale-replace" and "object base + object override
→ field-wise merge; any other conflict → override replaces base
wholesale".  Keys of the base keep their positions; override-only keys are
appended in override order. -/
def mergeVal : JVal → JVal → JVal
  | JVal.obj bs, JVal.obj os =>
      JVal.obj (mergeFields bs os ++ os.filter (fun kv => !(containsKey bs kv.1)))
  | _, o => o

/-- Field-wise part of the merge: every base entry is kept, its value
merged with the override's binding of the same key when there is one. -/
def mergeFields : List (String × JVal) → List (String × JVal) → List (String × JVal)
  | [], _ => []
  | (k, v) :: bs, os =>
      (k, match lookupField os k with
          | some w => mergeVal v w
          | none => v) :: mergeFields bs os
end

/-- Modelled from the spec: the call `mergeDeep(response, override)` in
the replacer.  The source mutates `response` in place and ignores the
return value, so a non-object override cannot replace the top-level
target — it leaves it unchanged. -/
def mergeDeep : JVal → JVal → JVal
  | JVal.obj bs, JVal.obj os => mergeVal (JVal.obj bs) (JVal.obj os)
  | t, _ => t

/-! ## Matcher compiler (`matcher`) -/

/-- A node of an object-shaped `when` specification: the value found at a
key of the spec object.  A `RegExp` is abstracted as its test (the source
runs `val.exec(cVal) != null`); a function is invoked with the field value
and the match context; `null` is `typeof 'object'` in JavaScript, so the
source recurses into it and `Object.entries(null)` throws; any other
non-object value is compared with `===`.  An array-valued node is an
object node over its index keys (exactly what `Object.entries` yields). -/
inductive MatchNode where
  | regex (test : JVal → Bool)
  | fn (f : JVal → List JVal → JVal)
  | nullNode
  | objNode (fields : List (String × MatchNode))
  | scalar (v : JVal)

/-- A `when` specification: a predicate function used verbatim, an object
of `MatchNode`s, `null` (which passes the `typeof` check and then throws
at match time), or anything else (a definition error: logged, and the
rule never matches). -/
inductive WhenSpec where
  | fnSpec (f : JVal → List JVal → JVal)
  | objSpec (fields : List (String × MatchNode))
  | nullSpec
  | invalid (v : JVal)

mutual
/-- One field check of the object matcher (`matches` in the source),
applied to the candidate's value at the spec key. -/
def evalMatchNode (cVal : JVal) (node : MatchNode) (args : List JVal) : Except JsErr Bool :=
  match node with
  | .regex t => .ok (t cVal)
  | .fn f => .ok (truthy (f cVal args))
  | .nullNode => .error .typeError
  | .scalar v => .ok (jsStrictEq cVal v)
  | .objNode fs => matchEntries cVal fs args

/-- The object matcher: `Object.entries(ref).map(...).every(i => i)`.
The source evaluates every entry (no short-circuit on `false`; `map` runs
before `every`) and the first thrown error aborts; the sequential
conjunction below has the same observable behaviour. -/
def matchEntries (c : JVal) (fs : List (String × MatchNode)) (args : List JVal) : Except JsErr Bool :=
  match fs with
  | [] => .ok true
  | (k, n) :: rest => do
      let cVal ← jGet c k
      let b ← evalMatchNode cVal n args
      let brest ← matchEntries c rest args
      .ok (b && brest)
end

/-- `matcher(matchDef, ruleNo)`: compile a `when` specification into a
predicate.  The boolean result of a predicate function is its truthiness
(the callers test it with `find` / `!!`). -/
def matcherPred : WhenSpec → JVal → List JVal → Except JsErr Bool
  | .fnSpec f, c, args => .ok (truthy (f c args))
  | .objSpec fs, c, args => matchEntries c fs args
  | .nullSpec, _, _ => .error .typeError
  | .invalid _, _, _ => .ok false

/-- Log output of `matcher`: an error for a definition that is neither a
function nor `typeof 'object'` (note: `null` slips through that check and
logs nothing). -/
def matcherLogs : WhenSpec → Nat → List LogEntry
  | .invalid _, no => [LogEntry.errorWhen no]
  | _, _ => []

/-! ## Response defaulting (`responseDefaults`) -/

def BANNER : String := "banner"
def VIDEO : String := "video"

/-- The fixed mock price `3.5764` (kept as one inert rational constant;
the engine never computes with it). -/
def defaultCpm : ℚ := (35764 : ℚ) / 10000

/-- `responseDefaults(bid)`: baseline response fields.  `response.mediaType`
is only assigned when the bid has no truthy `mediaType` of its own, and
the size branches test `response.mediaType` — so a bid that already
carries a `mediaType` gets no `width`/`height` defaults.  Property reads
on the bid throw exactly when the bid itself is nullish and are total
otherwise, so the error case is factored out (`responseDefaults` below)
and the body is total. -/
def responseDefaultsCore (bid : JVal) : JVal :=
  let requestId := chainGet bid "bidId"
  let bidMt := chainGet bid "mediaType"
  let bidMts := chainGet bid "mediaTypes"
  let base := [("requestId", requestId),
               ("cpm", JVal.num defaultCpm),
               ("currency", JVal.str "EUR"),
               ("ttl", JVal.num 360),
               ("creativeId", JVal.str "mock-creative-id"),
               ("netRevenue", JVal.bool false),
               ("meta", JVal.obj [])]
  let withMt :=
    if truthy bidMt then base
    else
      let keys := jKeysD (coalesce bidMts (JVal.obj []))
      base ++ [("mediaType", JVal.str (keys.head?.getD BANNER))]
  let respMt := (lookupField withMt "mediaType").getD JVal.undefined
  let size : JVal :=
    if jsStrictEq respMt (JVal.str BANNER) then
      coalesce (optIdx (chainGet (chainGet bidMts "banner") "sizes") 0)
               (JVal.arr [JVal.num 300, JVal.num 250])
    else if jsStrictEq respMt (JVal.str VIDEO) then
      coalesce (optIdx (chainGet (chainGet bidMts "video") "playerSize") 0)
               (JVal.arr [JVal.num 600, JVal.num 500])
    else JVal.undefined
  match size with
  | JVal.arr es =>
      JVal.obj (withMt ++ [("width", (es.get? 0).getD JVal.undefined),
                           ("height", (es.get? 1).getD JVal.undefined)])
  | _ => JVal.obj withMt

/-- `responseDefaults(bid)`: the first read of `bid.bidId` throws when
the bid is nullish; otherwise the computation is `responseDefaultsCore`. -/
def responseDefaults : JVal → Except JsErr JVal
  | JVal.null => .error .typeError
  | JVal.undefined => .error .typeError
  | bid => .ok (responseDefaultsCore bid)

/-- Modelled from the spec: the media-type response post-processor
registry (`modules/debugging/responses.js`, not part of the given source
tree) — "an external mapping from media-type name to a function that
mutates/augments a response object in place (e.g., filling in a
media-specific payload field); a missing entry is not an error".  The
banner and video processors fill the media payload field when it is not
already truthy and touch nothing else. -/
def setIfAbsent (r : JVal) (k : String) (v : JVal) : JVal :=
  if truthy ((getField r k).getD JVal.undefined) then r else setKey r k v

/-- Modelled from the spec: lookup `responseResolvers[mediaType]`. -/
def responseResolvers (mt : JVal) : Option (JVal → JVal → JVal) :=
  if jsStrictEq mt (JVal.str BANNER) then
    some (fun _bid resp => setIfAbsent resp "ad" (JVal.str "mock-banner-ad"))
  else if jsStrictEq mt (JVal.str VIDEO) then
    some (fun _bid resp => setIfAbsent resp "vastXml" (JVal.str "mock-vast-xml"))
  else none

/-! ## Replacer compiler (`replacer`) -/

/-- A node of an object/array-shaped `then` template: function leaves are
invoked with `(bid, ...context)`, non-null objects and arrays recurse,
everything else (including `null`) is copied literally. -/
inductive ThenNode where
  | fn (f : List JVal → JVal)
  | objT (fields : List (String × ThenNode))
  | arrT (elems : List ThenNode)
  | lit (v : JVal)

/-- A `then` specification.  `nullSpec` is an explicit `null`;
`emptySpec` is any other falsy value (`replDef = replDef || {}` turns it
into the empty template before the `typeof` checks); `invalid` is a
truthy non-function non-object (a logged definition error, treated as an
empty template). -/
inductive ThenSpec where
  | nullSpec
  | emptySpec
  | fnSpec (f : List JVal → JVal)
  | objSpec (fields : List (String × ThenNode))
  | arrSpec (elems : List ThenNode)
  | invalid (v : JVal)

mutual
def evalThenNode (args : List JVal) : ThenNode → JVal
  | .fn f => f args
  | .lit v => v
  | .objT fs => JVal.obj (evalThenFields args fs)
  | .arrT es => JVal.arr (evalThenElems args es)

def evalThenFields (args : List JVal) : List (String × ThenNode) → List (String × JVal)
  | [] => []
  | (k, n) :: fs => (k, evalThenNode args n) :: evalThenFields args fs

def evalThenElems (args : List JVal) : List ThenNode → List JVal
  | [] => []
  | n :: ns => evalThenNode args n :: evalThenElems args ns
end

/-- `replFn({args: [bid, ...context]})`: the evaluated override template.
Never called for `nullSpec` (the source returns the constant-`null`
generator before defining `replFn`). -/
def evalOverride : ThenSpec → List JVal → JVal
  | .nullSpec, _ => JVal.null
  | .emptySpec, _ => JVal.obj []
  | .invalid _, _ => JVal.obj []
  | .fnSpec f, args => f args
  | .objSpec fs, args => JVal.obj (evalThenFields args fs)
  | .arrSpec es, args => JVal.arr (evalThenElems args es)

/-- `const resolver = responseResolvers[response.mediaType]; resolver &&
resolver(bid, response)`. -/
def applyResolver (bid merged : JVal) : JVal :=
  match responseResolvers (chainGet merged "mediaType") with
  | some f => f bid merged
  | none => merged

/-- The closure returned by `replacer` for every non-`null` `then`
specification: compute the defaults, deep-merge the evaluated override on
top, run the media-type post-processor if one is registered, and stamp
the synthetic marker. -/
def replacerFinish (spec : ThenSpec) (bid : JVal) (args : List JVal) : Except JsErr JVal := do
  let response ← responseDefaults bid
  let merged := mergeDeep response (evalOverride spec (bid :: args))
  pure (setKey (applyResolver bid merged) "isDebug" (JVal.bool true))

/-- `replacer(replDef, ruleNo)`: compile a `then` specification into a
response generator. -/
def replacerGen (spec : ThenSpec) : JVal → List JVal → Except JsErr JVal :=
  match spec with
  | .nullSpec => fun _ _ => .ok JVal.null
  | s => fun bid args => replacerFinish s bid args

/-- Log output of `replacer`. -/
def replacerLogs : ThenSpec → Nat → List LogEntry
  | .invalid _, no => [LogEntry.errorThen no]
  | _, _ => []

/-! ## Auxiliary-config compiler (`paapiReplacer`) -/

/-- A `paapi` specification: an array of configs, a function producing
them, or anything else (a logged definition error — the source then
returns no generator at all). -/
inductive PaapiSpec where
  | arrSpec (cfgs : List JVal)
  | fnSpec (f : List JVal → JVal)
  | invalid (v : JVal)

/-- One step of `wrap`: a config with any key outside `config`/`igb` is
wrapped as `{config: ...}`; `Object.keys` throws on a nullish entry. -/
def wrapOne (c : JVal) : Except JsErr JVal := do
  let ks ← jKeys c
  pure (if ks.any (fun k => !(k == "config" || k == "igb"))
        then JVal.obj [("config", c)] else c)

/-- `wrap(configs = [])`: the default parameter only replaces `undefined`;
`.map` on any other non-array throws. -/
def wrapConfigs : JVal → Except JsErr (List JVal)
  | JVal.undefined => .ok []
  | JVal.arr es => es.mapM wrapOne
  | _ => .error .typeError

/-- `paapiReplacer(paapiDef, ruleNo)`: `none` is the fall-through branch
of the source, which logs an error and returns `undefined`. -/
def paapiGen : PaapiSpec → Option (List JVal → Except JsErr (List JVal))
  | .arrSpec cfgs => some (fun _ => wrapConfigs (JVal.arr cfgs))
  | .fnSpec f => some (fun args => wrapConfigs (f args))
  | .invalid _ => none

/-- Log output of `paapiReplacer`. -/
def paapiLogs : PaapiSpec → Nat → List LogEntry
  | .invalid _, no => [LogEntry.errorPaapi no]
  | _, _ => []

/-! ## Rule registry (`rule`, `updateConfig`) -/

/-- A rule definition as authored (`{when, then, options?, paapi?}`).
`paapiSpec = none` stands for a falsy `paapi` field, which
`ruleDef.paapi || []` turns into the empty array.  `options = none`
stands for an absent options object. -/
structure RuleDef where
  whenSpec : WhenSpec
  thenSpec : ThenSpec
  options : Option (List (String × JVal))
  paapiSpec : Option PaapiSpec

/-- A compiled rule. -/
structure Rule where
  no : Nat
  matchPred : JVal → List JVal → Except JsErr Bool
  replace : JVal → List JVal → Except JsErr JVal
  options : List (String × JVal)
  paapi : Option (List JVal → Except JsErr (List JVal))

/-- `Object.assign({}, DEFAULT_RULE_OPTIONS, ruleDef.options)` with
`DEFAULT_RULE_OPTIONS = {delay: 0}`. -/
def assignOptions : Option (List (String × JVal)) → List (String × JVal)
  | none => [("delay", JVal.num 0)]
  | some os => os.foldl (fun acc kv => setKeyFields acc kv.1 kv.2) [("delay", JVal.num 0)]

/-- `rule(ruleDef, ruleNo)`. -/
def compileRule (d : RuleDef) (no : Nat) : Rule :=
  { no := no
    matchPred := matcherPred d.whenSpec
    replace := replacerGen d.thenSpec
    options := assignOptions d.options
    paapi := paapiGen (d.paapiSpec.getD (PaapiSpec.arrSpec [])) }

/-- The enumeration inside `updateConfig`'s
`(config.intercept || []).map((ruleDef, i) => this.rule(ruleDef, i + 1))`:
compile each definition, numbering from `n`. -/
def compileRulesFrom (n : Nat) : List RuleDef → List Rule
  | [] => []
  | d :: ds => compileRule d n :: compileRulesFrom (n + 1) ds

/-- `updateConfig`: compile the whole list, ordinals `1..N` by position. -/
def compileRules (defs : List RuleDef) : List Rule :=
  compileRulesFrom 1 defs

/-- Log output of compiling one rule definition. -/
def ruleLogs (d : RuleDef) (no : Nat) : List LogEntry :=
  matcherLogs d.whenSpec no ++ replacerLogs d.thenSpec no ++
  paapiLogs (d.paapiSpec.getD (PaapiSpec.arrSpec [])) no

/-! ## Matching engine (`match`, `matchAll`) -/

/-- `match(candidate, ...args)`: `this.rules.find(rule =>
rule.match(candidate, ...args))` — first match wins, later predicates are
not evaluated. -/
def matchRules : List Rule → JVal → List JVal → Except JsErr (Option Rule)
  | [], _, _ => .ok none
  | r :: rs, c, args => do
      let b ← r.matchPred c args
      if b then pure (some r) else matchRules rs c args

/-- `matchAll(bids, bidRequest)`: partition a batch into matched pairs
and the unmatched remainder, in input order. -/
def matchAll (rules : List Rule) : List JVal → JVal → Except JsErr (List (Rule × JVal) × List JVal)
  | [], _ => .ok ([], [])
  | b :: bs, req => do
      let r ← matchRules rules b [req]
      let (ms, rem) ← matchAll rules bs req
      match r with
      | some rule => pure ((rule, b) :: ms, rem)
      | none => pure (ms, b :: rem)

/-- Whether a bid finds a matching rule (used only to state partition
properties). -/
def isMatchedB (rules : List Rule) (req b : JVal) : Bool :=
  match matchRules rules b [req] with
  | .ok (some _) => true
  | _ => false

/-! ## Interception orchestrator (`intercept`) and delivery schedule -/

/-- Modelled from the spec: `deepClone` of `src/utils.js` — "a deep,
independent copy".  In a value-semantics model a deep copy is the
identity. -/
def deepClone (v : JVal) : JVal := v

/-- An observable side effect of a scheduled delivery. -/
inductive Event where
  | addBid (response bid : JVal)
  | addPaapiConfig (cfg bid req : JVal)
  | done

/-- What one `setTimeout` callback will do: deliver a precomputed
response/config batch (and signal the completion latch), or — on the
zero-match path — invoke `done` directly. -/
inductive Action where
  | deliver (response : JVal) (paapi : List JVal) (bid : JVal)
  | fireDone

/-- The deferred work produced by one `intercept` call: the completion
latch threshold (`matches.length`), the value the `bidRequest` variable
holds when the callbacks fire (they close over the variable, which the
match branch reassigns to the clone before any timer runs), and the
scheduled `(delay, callback)` pairs in scheduling order. -/
structure Schedule where
  required : Nat
  reqAtFiring : JVal
  tasks : List (JVal × Action)

/-- The synchronous result of `intercept`. -/
structure Outcome where
  bids : List JVal
  bidRequest : JVal

def asArray : JVal → Except JsErr (List JVal)
  | JVal.arr es => .ok es
  | _ => .error .typeError

/-- The `matches.forEach` loop of `intercept`: for each match, compute
the mock response and the mock PAAPI configs eagerly, read the rule's
delay, and schedule the delivery.  A rule whose `paapi` generator is
missing (invalid `paapi` definition) makes the loop throw: the source
calls `match.rule.paapi(...)`, which is `undefined` there. -/
def buildTasks (bidRequest : JVal) : List (Rule × JVal) → Except JsErr (List (JVal × Action))
  | [] => .ok []
  | m :: ms => do
      let mockResponse ← m.1.replace m.2 [bidRequest]
      let mockPaapi ← (match m.1.paapi with
        | some g => g [m.2, bidRequest]
        | none => (Except.error JsErr.typeError : Except JsErr (List JVal)))
      let delay := (lookupField m.1.options "delay").getD JVal.undefined
      let rest ← buildTasks bidRequest ms
      pure ((delay, Action.deliver mockResponse mockPaapi m.2) :: rest)

/-- `intercept({bids, bidRequest, addBid, addPaapiConfig, done})`.  The
callbacks are modelled as the events of the returned `Schedule`; running
the schedule (below) replays them.  On an error the partially built
schedule is dropped by the model (in the source, deliveries scheduled
before the throw still fire; no claim depends on that remnant). -/
def intercept (rules : List Rule) (bidsArg : Option (List JVal)) (bidRequest : JVal) :
    Except JsErr (Outcome × Schedule) := do
  let bids ← match bidsArg with
    | some bs => pure bs
    | none => do asArray (← jGet bidRequest "bids")
  let (mtchs, remainder) ← matchAll rules bids bidRequest
  if 0 < mtchs.length then
    let tasks ← buildTasks bidRequest mtchs
    let req2 ← setKeyE (deepClone bidRequest) "bids" (JVal.arr remainder)
    pure (⟨remainder, req2⟩, ⟨mtchs.length, req2, tasks⟩)
  else
    pure (⟨bids, bidRequest⟩, ⟨0, bidRequest, [(JVal.num 0, Action.fireDone)]⟩)

/-- The side effects of one delivery callback:
`mockResponse && addBid(mockResponse, match.bid)` followed by
`mockPaapi.forEach(cfg => addPaapiConfig(cfg, match.bid, bidRequest))`. -/
def deliveryEvents (reqv response : JVal) (paapi : List JVal) (bid : JVal) : List Event :=
  (if truthy response then [Event.addBid response bid] else []) ++
  paapi.map (fun cfg => Event.addPaapiConfig cfg bid reqv)

/-- Modelled from the spec: the timer primitive plus
`delayExecution(done, matches.length)` — "a countdown fan-in keyed by the
match count": each delivery signals once and `done` runs when the count
reaches the threshold.  The task list is taken in timer firing order;
theorems quantify over every order, which covers every assignment of
delays. -/
def runSched (required : Nat) (reqv : JVal) : List (JVal × Action) → Nat → List Event
  | [], _ => []
  | (_, Action.fireDone) :: ts, c => Event.done :: runSched required reqv ts c
  | (_, Action.deliver resp paapi bid) :: ts, c =>
      deliveryEvents reqv resp paapi bid ++
      (if c + 1 = required then [Event.done] else []) ++
      runSched required reqv ts (c + 1)

/-! ## Lemmas: field lists, assignment, merge -/

theorem lookupField_append (xs ys : List (String × JVal)) (k : String) :
    lookupField (xs ++ ys) k =
      match lookupField xs k with
      | some v => some v
      | none => lookupField ys k := by
  induction xs with
  | nil => simp [lookupField]
  | cons kv fs ih =>
      obtain ⟨k1, v1⟩ := kv
      by_cases h : k1 = k <;> simp [lookupField, h, ih]

theorem containsKey_append (xs ys : List (String × JVal)) (k : String) :
    containsKey (xs ++ ys) k = (containsKey xs k || containsKey ys k) := by
  simp only [containsKey, lookupField_append]
  cases lookupField xs k <;> simp

theorem lookupField_mergeFields (bs os : List (String × JVal)) (k : String) :
    lookupField (mergeFields bs os) k =
      (lookupField bs k).map (fun v =>
        match lookupField os k with
        | some w => mergeVal v w
        | none => v) := by
  induction bs with
  | nil => simp [mergeFields, lookupField]
  | cons kv bs ih =>
      obtain ⟨k1, v1⟩ := kv
      by_cases h : k1 = k <;> simp [mergeFields, lookupField, h, ih]

theorem containsKey_mergeFields (bs os : List (String × JVal)) (k : String) :
    containsKey (mergeFields bs os) k = containsKey bs k := by
  simp [containsKey, lookupField_mergeFields]

theorem lookupField_filter_of_not_contains (bs os : List (String × JVal)) (k : String)
    (h : containsKey bs k = false) :
    lookupField (os.filter (fun kv => !(containsKey bs kv.1))) k = lookupField os k := by
  induction os with
  | nil => simp
  | cons kv os ih =>
      obtain ⟨k1, v1⟩ := kv
      by_cases hk : k1 = k
      · subst hk
        simp [List.filter_cons, h, lookupField]
      · by_cases hc : containsKey bs k1 <;>
          simp [List.filter_cons, hc, lookupField, hk, ih]

theorem lookupField_filter_none (os : List (String × JVal)) (p : String × JVal → Bool)
    (k : String) (h : lookupField os k = none) : lookupField (os.filter p) k = none := by
  induction os with
  | nil => exact h
  | cons kv os ih =>
      obtain ⟨k1, v1⟩ := kv
      have hk : k1 ≠ k := by
        intro he
        simp [lookupField, he] at h
      have hrest : lookupField os k = none := by
        simpa [lookupField, hk] using h
      by_cases hp : p (k1, v1) <;> simp [List.filter_cons, hp, lookupField, hk, ih hrest]

theorem mergeVal_nonobj (v w : JVal) (h : isObjV w = false) : mergeVal v w = w := by
  cases v <;> cases w <;> simp_all [mergeVal, isObjV]

theorem getField_mergeDeep_override (bs os : List (String × JVal)) (k : String) (w : JVal)
    (ho : lookupField os k = some w) (hw : isObjV w = false) :
    getField (mergeDeep (JVal.obj bs) (JVal.obj os)) k = some w := by
  show getField (mergeVal (JVal.obj bs) (JVal.obj os)) k = some w
  simp only [mergeVal, getField]
  rw [lookupField_append, lookupField_mergeFields]
  cases hb : lookupField bs k with
  | some v => simp [ho, mergeVal_nonobj v w hw]
  | none =>
      have hc : containsKey bs k = false := by simp [containsKey, hb]
      simp [lookupField_filter_of_not_contains bs os k hc, ho]

theorem getField_mergeDeep_no_override (bs os : List (String × JVal)) (k : String)
    (ho : lookupField os k = none) :
    getField (mergeDeep (JVal.obj bs) (JVal.obj os)) k = lookupField bs k := by
  show getField (mergeVal (JVal.obj bs) (JVal.obj os)) k = lookupField bs k
  simp only [mergeVal, getField]
  rw [lookupField_append, lookupField_mergeFields]
  cases hb : lookupField bs k with
  | some v => simp [ho]
  | none => simp [lookupField_filter_none os _ k ho]

theorem mergeDeep_obj_shape (bs : List (String × JVal)) (o : JVal) :
    ∃ fs2, mergeDeep (JVal.obj bs) o = JVal.obj fs2 ∧
      ∀ k, containsKey bs k = true → containsKey fs2 k = true := by
  cases o with
  | obj os =>
      refine ⟨mergeFields bs os ++ os.filter (fun kv => !(containsKey bs kv.1)), rfl, ?_⟩
      intro k hk
      rw [containsKey_append, containsKey_mergeFields, hk]
      rfl
  | null => exact ⟨bs, rfl, fun k hk => hk⟩
  | undefined => exact ⟨bs, rfl, fun k hk => hk⟩
  | bool b => exact ⟨bs, rfl, fun k hk => hk⟩
  | num q => exact ⟨bs, rfl, fun k hk => hk⟩
  | str s => exact ⟨bs, rfl, fun k hk => hk⟩
  | arr es => exact ⟨bs, rfl, fun k hk => hk⟩

theorem lookupField_setKeyFields_self (fs : List (String × JVal)) (k : String) (v : JVal) :
    lookupField (setKeyFields fs k v) k = some v := by
  induction fs with
  | nil => simp [setKeyFields, lookupField]
  | cons kv fs ih =>
      obtain ⟨k1, v1⟩ := kv
      by_cases h : k1 = k <;> simp [setKeyFields, lookupField, h, ih]

theorem lookupField_setKeyFields_other (fs : List (String × JVal)) (k k2 : String) (v : JVal)
    (hne : k2 ≠ k) : lookupField (setKeyFields fs k v) k2 = lookupField fs k2 := by
  induction fs with
  | nil => simp [setKeyFields, lookupField, Ne.symm hne]
  | cons kv fs ih =>
      obtain ⟨k1, v1⟩ := kv
      by_cases h : k1 = k
      · subst h
        simp [setKeyFields, lookupField, Ne.symm hne]
      · simp [setKeyFields, lookupField, h, ih]

theorem getField_setKey_obj_self (fs : List (String × JVal)) (k : String) (v : JVal) :
    getField (setKey (JVal.obj fs) k v) k = some v := by
  simp [setKey, getField, lookupField_setKeyFields_self]

theorem getField_setKey_obj_other (fs : List (String × JVal)) (k k2 : String) (v : JVal)
    (hne : k2 ≠ k) : getField (setKey (JVal.obj fs) k v) k2 = lookupField fs k2 := by
  simp [setKey, getField, lookupField_setKeyFields_other fs k k2 v hne]

theorem isObjV_setKey_obj (fs : List (String × JVal)) (k : String) (v : JVal) :
    isObjV (setKey (JVal.obj fs) k v) = true := by
  simp [setKey, isObjV]

theorem isObjV_setIfAbsent (fs : List (String × JVal)) (k : String) (v : JVal) :
    isObjV (setIfAbsent (JVal.obj fs) k v) = true := by
  unfold setIfAbsent
  split
  · rfl
  · exact isObjV_setKey_obj fs k v

theorem getField_setIfAbsent_other (r : JVal) (k k2 : String) (v : JVal) (hne : k2 ≠ k) :
    getField (setIfAbsent r k v) k2 = getField r k2 := by
  unfold setIfAbsent
  split
  · rfl
  · cases r with
    | obj fs => simp [setKey, getField, lookupField_setKeyFields_other fs k k2 v hne]
    | null => rfl
    | undefined => rfl
    | bool b => rfl
    | num q => rfl
    | str s => rfl
    | arr es => rfl

theorem getField_isSome_setIfAbsent (r : JVal) (k k2 : String) (v : JVal)
    (h : (getField r k2).isSome = true) : (getField (setIfAbsent r k v) k2).isSome = true := by
  by_cases hk : k2 = k
  · subst hk
    unfold setIfAbsent
    split
    · exact h
    · cases r with
      | obj fs => simp [getField_setKey_obj_self]
      | null => exact h
      | undefined => exact h
      | bool b => exact h
      | num q => exact h
      | str s => exact h
      | arr es => exact h
  · rw [getField_setIfAbsent_other r k k2 v hk]
    exact h

/-! ## Lemmas: response defaulting and the replacer -/

theorem isObjV_exists (v : JVal) (h : isObjV v = true) : ∃ fs, v = JVal.obj fs := by
  cases v <;> (try exact ⟨_, rfl⟩) <;> simp [isObjV] at h

theorem getField_isSome_setKey (fs : List (String × JVal)) (k k2 : String) (v : JVal)
    (h : (lookupField fs k2).isSome = true) :
    (getField (setKey (JVal.obj fs) k v) k2).isSome = true := by
  by_cases hk : k2 = k
  · subst hk
    simp [getField_setKey_obj_self]
  · rw [getField_setKey_obj_other fs k k2 v hk]
    exact h

theorem responseDefaultsCore_shape (bid : JVal) :
    ∃ v tl, responseDefaultsCore bid = JVal.obj (("requestId", v) :: tl) := by
  unfold responseDefaultsCore
  dsimp only
  split <;> split <;> exact ⟨_, _, rfl⟩

theorem responseDefaults_ok_core (bid resp : JVal) (h : responseDefaults bid = .ok resp) :
    resp = responseDefaultsCore bid := by
  cases bid <;> first
    | exact Except.noConfusion h
    | exact (Except.ok.inj h).symm

theorem applyResolver_props (bid merged : JVal) (hm : isObjV merged = true) :
    isObjV (applyResolver bid merged) = true ∧
    ∀ k, (getField merged k).isSome = true →
      (getField (applyResolver bid merged) k).isSome = true := by
  obtain ⟨fs, rfl⟩ := isObjV_exists merged hm
  by_cases hb : jsStrictEq (chainGet (JVal.obj fs) "mediaType") (JVal.str BANNER)
  · constructor
    · simp [applyResolver, responseResolvers, hb, isObjV_setIfAbsent]
    · intro k hk
      simp only [applyResolver, responseResolvers, hb, if_true]
      exact getField_isSome_setIfAbsent _ _ _ _ hk
  · by_cases hv : jsStrictEq (chainGet (JVal.obj fs) "mediaType") (JVal.str VIDEO)
    · constructor
      · simp [applyResolver, responseResolvers, hb, hv, isObjV_setIfAbsent]
      · intro k hk
        simp only [applyResolver, responseResolvers, hb, hv, if_false, if_true]
        exact getField_isSome_setIfAbsent _ _ _ _ hk
    · constructor
      · simp [applyResolver, responseResolvers, hb, hv, hm]
      · intro k hk
        simpa [applyResolver, responseResolvers, hb, hv] using hk

theorem replacerFinish_ok (spec : ThenSpec) (bid : JVal) (args : List JVal) (r : JVal)
    (h : replacerFinish spec bid args = .ok r) :
    ∃ resp, responseDefaults bid = .ok resp ∧
      r = setKey (applyResolver bid (mergeDeep resp (evalOverride spec (bid :: args))))
            "isDebug" (JVal.bool true) := by
  unfold replacerFinish at h
  cases hb : responseDefaults bid with
  | error e =>
      rw [hb] at h
      exact Except.noConfusion h
  | ok resp =>
      rw [hb] at h
      exact ⟨resp, rfl, (Except.ok.inj h).symm⟩

theorem replacerFinish_props (spec : ThenSpec) (bid : JVal) (args : List JVal) (r : JVal)
    (h : replacerFinish spec bid args = .ok r) :
    isObjV r = true ∧ getField r "isDebug" = some (JVal.bool true) ∧
    (getField r "requestId").isSome = true ∧
    (∀ k, k ≠ "isDebug" → (getField (responseDefaultsCore bid) k).isSome = true →
      (getField r k).isSome = true) := by
  obtain ⟨resp, hresp, hr⟩ := replacerFinish_ok spec bid args r h
  have hcore := responseDefaults_ok_core bid resp hresp
  obtain ⟨v0, tl, hshape⟩ := responseDefaultsCore_shape bid
  rw [hcore, hshape] at hr
  obtain ⟨fs2, hm, hkeys⟩ :=
    mergeDeep_obj_shape (("requestId", v0) :: tl) (evalOverride spec (bid :: args))
  rw [hm] at hr
  have hro : isObjV (JVal.obj fs2) = true := rfl
  obtain ⟨hobj, hpres⟩ := applyResolver_props bid (JVal.obj fs2) hro
  obtain ⟨rfs, hrfs⟩ := isObjV_exists _ hobj
  rw [hrfs] at hr
  subst hr
  refine ⟨isObjV_setKey_obj rfs _ _, getField_setKey_obj_self rfs _ _, ?_, ?_⟩
  · have h1 : (getField (JVal.obj (("requestId", v0) :: tl)) "requestId").isSome = true := by
      simp [getField, lookupField]
    have h2 : containsKey (("requestId", v0) :: tl) "requestId" = true := by
      simpa [containsKey, getField] using h1
    have h3 : (getField (JVal.obj fs2) "requestId").isSome = true := by
      simpa [containsKey, getField] using hkeys "requestId" h2
    have h4 := hpres "requestId" h3
    rw [hrfs] at h4
    exact getField_isSome_setKey rfs "isDebug" "requestId" (JVal.bool true)
      (by simpa [getField] using h4)
  · intro k hkne hksome
    rw [hshape] at hksome
    have h2 : containsKey (("requestId", v0) :: tl) k = true := by
      simpa [containsKey, getField] using hksome
    have h3 : (getField (JVal.obj fs2) k).isSome = true := by
      simpa [containsKey, getField] using hkeys k h2
    have h4 := hpres k h3
    rw [hrfs] at h4
    exact getField_isSome_setKey rfs "isDebug" k (JVal.bool true)
      (by simpa [getField] using h4)

/-! ## Lemmas: matching engine -/

theorem exceptBind_ok {α β : Type} {x : Except JsErr α} {f : α → Except JsErr β} {y : β}
    (h : (x >>= f) = .ok y) : ∃ a, x = .ok a ∧ f a = .ok y := by
  cases x with
  | error e => exact Except.noConfusion h
  | ok a => exact ⟨a, rfl, h⟩

theorem matchRules_ok_none (rules : List Rule) (c : JVal) (args : List JVal)
    (h : matchRules rules c args = .ok none) :
    ∀ r ∈ rules, r.matchPred c args = .ok false := by
  induction rules with
  | nil => simp
  | cons r1 rs ih =>
      obtain ⟨b, hb, hf⟩ := exceptBind_ok h
      cases b with
      | true => exact absurd (Except.ok.inj hf) (by simp)
      | false =>
          intro r2 hr2
          rcases List.mem_cons.mp hr2 with rfl | hmem
          · exact hb
          · exact ih hf r2 hmem

theorem matchRules_first (rules : List Rule) (c : JVal) (args : List JVal) (r : Rule)
    (h : matchRules rules c args = .ok (some r)) :
    ∃ i, ∃ hi : i < rules.length, rules.get ⟨i, hi⟩ = r ∧ r.matchPred c args = .ok true ∧
      ∀ j, ∀ hj : j < i, (rules.get ⟨j, Nat.lt_trans hj hi⟩).matchPred c args = .ok false := by
  induction rules with
  | nil => exact absurd (Except.ok.inj h) (by simp)
  | cons r1 rs ih =>
      obtain ⟨b, hb, hf⟩ := exceptBind_ok h
      cases b with
      | true =>
          obtain rfl : r1 = r := Option.some.inj (Except.ok.inj hf)
          exact ⟨0, Nat.succ_pos _, rfl, hb, fun j hj => absurd hj (Nat.not_lt_zero j)⟩
      | false =>
          obtain ⟨i, hi, hget, htrue, hprev⟩ := ih hf
          refine ⟨i + 1, Nat.succ_lt_succ hi, hget, htrue, ?_⟩
          intro j hj
          cases j with
          | zero => exact hb
          | succ j2 => exact hprev j2 (Nat.lt_of_succ_lt_succ hj)

theorem matchRules_ok_some_mem (rules : List Rule) (c : JVal) (args : List JVal) (r : Rule)
    (h : matchRules rules c args = .ok (some r)) : r ∈ rules := by
  obtain ⟨i, hi, hget, _, _⟩ := matchRules_first rules c args r h
  rw [← hget]
  exact List.get_mem rules i hi

theorem matchAll_parts (rules : List Rule) (bs : List JVal) (req : JVal)
    (ms : List (Rule × JVal)) (rem : List JVal)
    (h : matchAll rules bs req = .ok (ms, rem)) :
    ms.map Prod.snd = bs.filter (isMatchedB rules req) ∧
    rem = bs.filter (fun b => !(isMatchedB rules req b)) ∧
    ms.length + rem.length = bs.length := by
  induction bs generalizing ms rem with
  | nil =>
      obtain ⟨h1, h2⟩ := Prod.mk.inj (Except.ok.inj h)
      subst h1
      subst h2
      simp
  | cons b bs ih =>
      obtain ⟨ropt, hr, hf⟩ := exceptBind_ok h
      obtain ⟨⟨ms2, rem2⟩, hall, hf2⟩ := exceptBind_ok hf
      cases ropt with
      | some rule =>
          obtain ⟨h1, h2⟩ := Prod.mk.inj (Except.ok.inj hf2)
          subst h1
          subst h2
          have hmatched : isMatchedB rules req b = true := by simp [isMatchedB, hr]
          obtain ⟨i1, i2, i3⟩ := ih _ _ hall
          refine ⟨?_, ?_, ?_⟩
          · simp [List.filter_cons, hmatched, i1]
          · simp [List.filter_cons, hmatched, i2]
          · simp only [List.length_cons]
            omega
      | none =>
          obtain ⟨h1, h2⟩ := Prod.mk.inj (Except.ok.inj hf2)
          subst h1
          subst h2
          have hmatched : isMatchedB rules req b = false := by simp [isMatchedB, hr]
          obtain ⟨i1, i2, i3⟩ := ih _ _ hall
          refine ⟨?_, ?_, ?_⟩
          · simp [List.filter_cons, hmatched, i1]
          · simp [List.filter_cons, hmatched, i2]
          · simp only [List.length_cons]
            omega

theorem matchAll_mem (rules : List Rule) (bs : List JVal) (req : JVal)
    (ms : List (Rule × JVal)) (rem : List JVal)
    (h : matchAll rules bs req = .ok (ms, rem)) :
    ∀ m ∈ ms, m.1 ∈ rules ∧ m.2 ∈ bs := by
  induction bs generalizing ms rem with
  | nil =>
      obtain ⟨h1, h2⟩ := Prod.mk.inj (Except.ok.inj h)
      subst h1
      simp
  | cons b bs ih =>
      obtain ⟨ropt, hr, hf⟩ := exceptBind_ok h
      obtain ⟨⟨ms2, rem2⟩, hall, hf2⟩ := exceptBind_ok hf
      cases ropt with
      | some rule =>
          obtain ⟨h1, h2⟩ := Prod.mk.inj (Except.ok.inj hf2)
          subst h1
          intro m hm
          rcases List.mem_cons.mp hm with rfl | hmem
          · exact ⟨matchRules_ok_some_mem rules b [req] rule hr, List.mem_cons_self b bs⟩
          · obtain ⟨hm1, hm2⟩ := ih _ _ hall m hmem
            exact ⟨hm1, List.mem_cons_of_mem b hm2⟩
      | none =>
          obtain ⟨h1, h2⟩ := Prod.mk.inj (Except.ok.inj hf2)
          subst h1
          intro m hm
          obtain ⟨hm1, hm2⟩ := ih _ _ hall m hm
          exact ⟨hm1, List.mem_cons_of_mem b hm2⟩

theorem matchAll_nomatch (rules : List Rule) (bs : List JVal) (req : JVal)
    (h : ∀ b ∈ bs, matchRules rules b [req] = .ok none) :
    matchAll rules bs req = .ok ([], bs) := by
  induction bs with
  | nil => rfl
  | cons b bs ih =>
      have hb := h b (List.mem_cons_self b bs)
      have hrest := ih (fun b2 hb2 => h b2 (List.mem_cons_of_mem b hb2))
      simp only [matchAll]
      rw [hb, hrest]
      rfl

/-! ## Lemmas: rule registry, orchestrator, schedule -/

theorem length_compileRulesFrom (n : Nat) (ds : List RuleDef) :
    (compileRulesFrom n ds).length = ds.length := by
  induction ds generalizing n with
  | nil => rfl
  | cons d ds ih => simp [compileRulesFrom, ih]

theorem get_compileRulesFrom (ds : List RuleDef) (n i : Nat)
    (h : i < (compileRulesFrom n ds).length) :
    (compileRulesFrom n ds).get ⟨i, h⟩ =
      compileRule (ds.get ⟨i, by rw [← length_compileRulesFrom n ds]; exact h⟩) (n + i) := by
  induction ds generalizing n i with
  | nil => exact absurd h (by simp [compileRulesFrom])
  | cons d ds ih =>
      cases i with
      | zero => rfl
      | succ i2 =>
          have h2 : i2 < (compileRulesFrom (n + 1) ds).length := by
            simpa [compileRulesFrom] using h
          have := ih (n := n + 1) (i := i2) h2
          simp only [compileRulesFrom, List.get_cons_succ]
          rw [this]
          congr 1
          omega

theorem mem_compileRulesFrom (r : Rule) (n : Nat) (ds : List RuleDef)
    (h : r ∈ compileRulesFrom n ds) : ∃ d ∈ ds, ∃ m, r = compileRule d m := by
  induction ds generalizing n with
  | nil => exact absurd h (by simp [compileRulesFrom])
  | cons d ds ih =>
      rcases List.mem_cons.mp h with rfl | hmem
      · exact ⟨d, List.mem_cons_self d ds, n, rfl⟩
      · obtain ⟨d2, hd2, m, hm⟩ := ih (n := n + 1) hmem
        exact ⟨d2, List.mem_cons_of_mem d hd2, m, hm⟩

theorem buildTasks_ok (req : JVal) (ms : List (Rule × JVal)) (ts : List (JVal × Action))
    (h : buildTasks req ms = .ok ts) :
    ts.length = ms.length ∧ ∀ t ∈ ts, ∃ d r p b, t = (d, Action.deliver r p b) := by
  induction ms generalizing ts with
  | nil =>
      obtain rfl : ([] : List (JVal × Action)) = ts := Except.ok.inj h
      exact ⟨rfl, by simp⟩
  | cons m ms ih =>
      obtain ⟨resp, h1, h2⟩ := exceptBind_ok h
      obtain ⟨paapi, h3, h4⟩ := exceptBind_ok h2
      obtain ⟨rest, h5, h6⟩ := exceptBind_ok h4
      obtain rfl := Except.ok.inj h6
      obtain ⟨ihlen, ihdel⟩ := ih _ h5
      refine ⟨by simp [ihlen], ?_⟩
      intro t ht
      rcases List.mem_cons.mp ht with rfl | htm
      · exact ⟨_, _, _, _, rfl⟩
      · exact ihdel t htm

theorem intercept_someBids (rules : List Rule) (bs : List JVal) (req : JVal) :
    intercept rules (some bs) req =
      (matchAll rules bs req >>= fun p =>
        if 0 < p.1.length then
          (buildTasks req p.1 >>= fun tasks =>
            setKeyE (deepClone req) "bids" (JVal.arr p.2) >>= fun req2 =>
              pure (⟨p.2, req2⟩, ⟨p.1.length, req2, tasks⟩))
        else pure (⟨bs, req⟩, ⟨0, req, [(JVal.num 0, Action.fireDone)]⟩)) := rfl

theorem intercept_noneBids (rules : List Rule) (req : JVal) :
    intercept rules none req =
      (jGet req "bids" >>= fun v => asArray v >>= fun bs =>
        matchAll rules bs req >>= fun p =>
        if 0 < p.1.length then
          (buildTasks req p.1 >>= fun tasks =>
            setKeyE (deepClone req) "bids" (JVal.arr p.2) >>= fun req2 =>
              pure (⟨p.2, req2⟩, ⟨p.1.length, req2, tasks⟩))
        else pure (⟨bs, req⟩, ⟨0, req, [(JVal.num 0, Action.fireDone)]⟩)) := rfl

theorem intercept_tail_sched (rules : List Rule) (bs : List JVal) (req : JVal)
    (out : Outcome) (sched : Schedule)
    (h : (matchAll rules bs req >>= fun p =>
        if 0 < p.1.length then
          (buildTasks req p.1 >>= fun tasks =>
            setKeyE (deepClone req) "bids" (JVal.arr p.2) >>= fun req2 =>
              pure (⟨p.2, req2⟩, ⟨p.1.length, req2, tasks⟩))
        else pure (⟨bs, req⟩, ⟨0, req, [(JVal.num 0, Action.fireDone)]⟩))
          = .ok (out, sched))
    (hpos : 0 < sched.required) :
    sched.tasks.length = sched.required ∧
    ∀ t ∈ sched.tasks, ∃ d r p b, t = (d, Action.deliver r p b) := by
  obtain ⟨⟨mtchs, remainder⟩, h3, h4⟩ := exceptBind_ok h
  dsimp only at h4
  by_cases hm : 0 < mtchs.length
  · rw [if_pos hm] at h4
    obtain ⟨ts, h5, h6⟩ := exceptBind_ok h4
    obtain ⟨req2, h7, h8⟩ := exceptBind_ok h6
    obtain ⟨h9, h10⟩ := Prod.mk.inj (Except.ok.inj h8)
    subst h10
    obtain ⟨l1, l2⟩ := buildTasks_ok req mtchs ts h5
    exact ⟨l1, l2⟩
  · rw [if_neg hm] at h4
    obtain ⟨h9, h10⟩ := Prod.mk.inj (Except.ok.inj h4)
    subst h10
    exact absurd hpos (by simp)

theorem intercept_sched (rules : List Rule) (bidsArg : Option (List JVal)) (req : JVal)
    (out : Outcome) (sched : Schedule)
    (h : intercept rules bidsArg req = .ok (out, sched)) (hpos : 0 < sched.required) :
    sched.tasks.length = sched.required ∧
    ∀ t ∈ sched.tasks, ∃ d r p b, t = (d, Action.deliver r p b) := by
  cases bidsArg with
  | some bs =>
      rw [intercept_someBids] at h
      exact intercept_tail_sched rules bs req out sched h hpos
  | none =>
      rw [intercept_noneBids] at h
      obtain ⟨v, h1, h2⟩ := exceptBind_ok h
      obtain ⟨bs, h3, h4⟩ := exceptBind_ok h2
      exact intercept_tail_sched rules bs req out sched h4 hpos

theorem done_not_mem_deliveryEvents (reqv r : JVal) (p : List JVal) (b : JVal) :
    Event.done ∉ deliveryEvents reqv r p b := by
  intro h
  unfold deliveryEvents at h
  rcases List.mem_append.mp h with h1 | h2
  · by_cases ht : truthy r <;> simp [ht] at h1
  · obtain ⟨c, _, he⟩ := List.mem_map.mp h2
    exact Event.noConfusion he

theorem runSched_deliver (required : Nat) (reqv : JVal) (ts : List (JVal × Action)) (c : Nat)
    (hdel : ∀ t ∈ ts, ∃ d r p b, t = (d, Action.deliver r p b))
    (hlen : c + ts.length = required) (hne : ts ≠ []) :
    ∃ pre, runSched required reqv ts c = pre ++ [Event.done] ∧ Event.done ∉ pre := by
  induction ts generalizing c with
  | nil => exact absurd rfl hne
  | cons t ts ih =>
      obtain ⟨d, r, p, b, rfl⟩ := hdel t (List.mem_cons_self t ts)
      cases ts with
      | nil =>
          have hc : c + 1 = required := by simpa using hlen
          refine ⟨deliveryEvents reqv r p b, ?_, done_not_mem_deliveryEvents reqv r p b⟩
          simp [runSched, hc]
      | cons t2 ts2 =>
          have hlt : ¬ (c + 1 = required) := by
            simp only [List.length_cons] at hlen
            omega
          obtain ⟨pre, hrun, hnotin⟩ :=
            ih (fun t3 ht3 => hdel t3 (List.mem_cons_of_mem _ ht3)) (c := c + 1)
              (by simp only [List.length_cons] at hlen ⊢; omega)
              (by simp)
          refine ⟨deliveryEvents reqv r p b ++ pre, ?_, ?_⟩
          · simp only [runSched, hlt, if_false, hrun]
            simp
          · intro hmem
            rcases List.mem_append.mp hmem with h1 | h2
            · exact done_not_mem_deliveryEvents reqv r p b h1
            · exact hnotin h2

/-! ## Safety: which rule definitions evaluate without throwing

The source does throw for some malformed inputs (a `null` `when`, an
invalid `paapi` on a matching rule, nested object matchers reaching a
nullish field value, nullish bids).  The predicates below carve out the
definitions and inputs on which evaluation provably cannot throw. -/

def NonNullish (v : JVal) : Prop := v ≠ JVal.null ∧ v ≠ JVal.undefined

/-- A match node that cannot throw when evaluated: anything except the
`null` node (`Object.entries(null)`) and a nested object node (whose
recursion can reach a nullish field value). -/
def FlatNode : MatchNode → Prop
  | MatchNode.objNode _ => False
  | MatchNode.nullNode => False
  | _ => True

/-- A `when` specification whose compiled predicate cannot throw on
non-nullish candidates. -/
def SafeWhen : WhenSpec → Prop
  | WhenSpec.nullSpec => False
  | WhenSpec.objSpec fs => ∀ p ∈ fs, FlatNode p.2
  | _ => True

/-- A `paapi` specification whose compiled generator exists and cannot
throw. -/
def SafePaapi : PaapiSpec → Prop
  | PaapiSpec.arrSpec cfgs => ∀ c ∈ cfgs, NonNullish c
  | PaapiSpec.fnSpec f => ∀ args, f args = JVal.undefined ∨
      ∃ cfgs, f args = JVal.arr cfgs ∧ ∀ c ∈ cfgs, NonNullish c
  | PaapiSpec.invalid _ => False

def SafeRuleDef (d : RuleDef) : Prop :=
  SafeWhen d.whenSpec ∧ SafePaapi (d.paapiSpec.getD (PaapiSpec.arrSpec []))

theorem exceptOkBind {α β : Type} (a : α) (f : α → Except JsErr β) :
    ((Except.ok a : Except JsErr α) >>= f) = f a := rfl

theorem jGet_nonNullish (v : JVal) (k : String) (h : NonNullish v) :
    jGet v k = .ok (chainGet v k) := by
  cases v <;> first
    | rfl
    | exact absurd rfl h.1
    | exact absurd rfl h.2

theorem jKeys_nonNullish (c : JVal) (h : NonNullish c) : jKeys c = .ok (jKeysD c) := by
  cases c <;> first
    | rfl
    | exact absurd rfl h.1
    | exact absurd rfl h.2

theorem evalMatchNode_flat (cVal : JVal) (node : MatchNode) (args : List JVal)
    (h : FlatNode node) : ∃ b, evalMatchNode cVal node args = .ok b := by
  cases node with
  | regex t => exact ⟨_, rfl⟩
  | fn f => exact ⟨_, rfl⟩
  | scalar v => exact ⟨_, rfl⟩
  | nullNode => exact h.elim
  | objNode fs => exact h.elim

theorem matchEntries_cons (c : JVal) (k : String) (n : MatchNode)
    (fs : List (String × MatchNode)) (args : List JVal) :
    matchEntries c ((k, n) :: fs) args =
      (jGet c k >>= fun cVal => evalMatchNode cVal n args >>= fun b =>
        matchEntries c fs args >>= fun brest => Except.ok (b && brest)) := rfl

theorem matchEntries_flat (fs : List (String × MatchNode)) (c : JVal) (args : List JVal)
    (hc : NonNullish c) (hflat : ∀ p ∈ fs, FlatNode p.2) :
    ∃ b, matchEntries c fs args = .ok b := by
  induction fs with
  | nil => exact ⟨true, rfl⟩
  | cons p fs ih =>
      obtain ⟨k, n⟩ := p
      obtain ⟨b1, hb1⟩ := evalMatchNode_flat (chainGet c k) n args
        (hflat (k, n) (List.mem_cons_self _ _))
      obtain ⟨b2, hb2⟩ := ih (fun p hp => hflat p (List.mem_cons_of_mem _ hp))
      refine ⟨b1 && b2, ?_⟩
      simp only [matchEntries_cons, jGet_nonNullish c k hc, exceptOkBind, hb1, hb2]

theorem matcherPred_safe (w : WhenSpec) (c : JVal) (args : List JVal)
    (hw : SafeWhen w) (hc : NonNullish c) : ∃ b, matcherPred w c args = .ok b := by
  cases w with
  | fnSpec f => exact ⟨_, rfl⟩
  | invalid v => exact ⟨false, rfl⟩
  | nullSpec => exact hw.elim
  | objSpec fs => exact matchEntries_flat fs c args hc hw

theorem matchRules_cons (r : Rule) (rs : List Rule) (c : JVal) (args : List JVal) :
    matchRules (r :: rs) c args =
      (r.matchPred c args >>= fun b =>
        if b then pure (some r) else matchRules rs c args) := rfl

theorem matchRules_safe (rules : List Rule) (c : JVal) (args : List JVal)
    (h : ∀ r ∈ rules, ∃ b, r.matchPred c args = .ok b) :
    ∃ res, matchRules rules c args = .ok res := by
  induction rules with
  | nil => exact ⟨none, rfl⟩
  | cons r rs ih =>
      obtain ⟨b, hb⟩ := h r (List.mem_cons_self r rs)
      obtain ⟨res, hres⟩ := ih (fun r2 h2 => h r2 (List.mem_cons_of_mem r h2))
      cases b with
      | false =>
          refine ⟨res, ?_⟩
          rw [matchRules_cons, hb, exceptOkBind]
          simpa using hres
      | true =>
          refine ⟨some r, ?_⟩
          rw [matchRules_cons, hb, exceptOkBind]
          rfl

theorem matchAll_cons (rules : List Rule) (b : JVal) (bs : List JVal) (req : JVal) :
    matchAll rules (b :: bs) req =
      (matchRules rules b [req] >>= fun r => matchAll rules bs req >>= fun p =>
        match r with
        | some rule => pure ((rule, b) :: p.1, p.2)
        | none => pure (p.1, b :: p.2)) := rfl

theorem matchAll_safe (rules : List Rule) (bs : List JVal) (req : JVal)
    (h : ∀ b ∈ bs, ∃ res, matchRules rules b [req] = .ok res) :
    ∃ out, matchAll rules bs req = .ok out := by
  induction bs with
  | nil => exact ⟨([], []), rfl⟩
  | cons b bs ih =>
      obtain ⟨res, hres⟩ := h b (List.mem_cons_self b bs)
      obtain ⟨⟨ms, rem⟩, hall⟩ := ih (fun b2 h2 => h b2 (List.mem_cons_of_mem b h2))
      cases res with
      | some rule =>
          exact ⟨((rule, b) :: ms, rem),
            by simp only [matchAll_cons, hres, hall, exceptOkBind]; rfl⟩
      | none =>
          exact ⟨(ms, b :: rem),
            by simp only [matchAll_cons, hres, hall, exceptOkBind]; rfl⟩

theorem responseDefaults_safe (bid : JVal) (h : NonNullish bid) :
    responseDefaults bid = .ok (responseDefaultsCore bid) := by
  cases bid <;> first
    | rfl
    | exact absurd rfl h.1
    | exact absurd rfl h.2

theorem replacerFinish_safe (spec : ThenSpec) (bid : JVal) (args : List JVal)
    (h : NonNullish bid) : ∃ r, replacerFinish spec bid args = .ok r := by
  refine ⟨setKey (applyResolver bid (mergeDeep (responseDefaultsCore bid)
    (evalOverride spec (bid :: args)))) "isDebug" (JVal.bool true), ?_⟩
  unfold replacerFinish
  rw [responseDefaults_safe bid h]
  rfl

theorem replacerGen_safe (spec : ThenSpec) (bid : JVal) (args : List JVal)
    (h : NonNullish bid) : ∃ r, replacerGen spec bid args = .ok r := by
  cases spec with
  | nullSpec => exact ⟨JVal.null, rfl⟩
  | emptySpec => exact replacerFinish_safe ThenSpec.emptySpec bid args h
  | fnSpec f => exact replacerFinish_safe (ThenSpec.fnSpec f) bid args h
  | objSpec fs => exact replacerFinish_safe (ThenSpec.objSpec fs) bid args h
  | arrSpec es => exact replacerFinish_safe (ThenSpec.arrSpec es) bid args h
  | invalid v => exact replacerFinish_safe (ThenSpec.invalid v) bid args h

/-- The action of `wrap` on one non-nullish entry, as a total function
(used to state the normalization results). -/
def wrapTotal (c : JVal) : JVal :=
  if (jKeysD c).any (fun k => !(k == "config" || k == "igb"))
  then JVal.obj [("config", c)] else c

theorem wrapOne_nonNullish (c : JVal) (h : NonNullish c) : wrapOne c = .ok (wrapTotal c) := by
  unfold wrapOne wrapTotal
  rw [jKeys_nonNullish c h]
  rfl

theorem mapM_wrapOne (cfgs : List JVal) (h : ∀ c ∈ cfgs, NonNullish c) :
    cfgs.mapM wrapOne = .ok (cfgs.map wrapTotal) := by
  induction cfgs with
  | nil => rfl
  | cons c cfgs ih =>
      rw [List.mapM_cons, wrapOne_nonNullish c (h c (List.mem_cons_self c cfgs)),
        ih (fun c2 h2 => h c2 (List.mem_cons_of_mem c h2))]
      rfl

theorem wrapConfigs_arr (cfgs : List JVal) (h : ∀ c ∈ cfgs, NonNullish c) :
    wrapConfigs (JVal.arr cfgs) = .ok (cfgs.map wrapTotal) :=
  mapM_wrapOne cfgs h

theorem paapiGen_safe (p : PaapiSpec) (h : SafePaapi p) :
    ∃ g, paapiGen p = some g ∧ ∀ args, ∃ out, g args = .ok out := by
  cases p with
  | arrSpec cfgs => exact ⟨_, rfl, fun args => ⟨cfgs.map wrapTotal, wrapConfigs_arr cfgs h⟩⟩
  | fnSpec f =>
      refine ⟨_, rfl, fun args => ?_⟩
      rcases h args with hu | ⟨cfgs, harr, hsafe⟩
      · exact ⟨[], by show wrapConfigs (f args) = _; rw [hu]; rfl⟩
      · exact ⟨cfgs.map wrapTotal,
          by show wrapConfigs (f args) = _; rw [harr]; exact wrapConfigs_arr cfgs hsafe⟩
  | invalid v => exact h.elim

theorem buildTasks_cons (req : JVal) (m : Rule × JVal) (ms : List (Rule × JVal)) :
    buildTasks req (m :: ms) =
      (m.1.replace m.2 [req] >>= fun mockResponse =>
        (match m.1.paapi with
         | some g => g [m.2, req]
         | none => (Except.error JsErr.typeError : Except JsErr (List JVal))) >>= fun mockPaapi =>
        buildTasks req ms >>= fun rest =>
          pure (((lookupField m.1.options "delay").getD JVal.undefined,
                 Action.deliver mockResponse mockPaapi m.2) :: rest)) := rfl

theorem buildTasks_safe (req : JVal) (ms : List (Rule × JVal))
    (h : ∀ m ∈ ms, (∃ r, m.1.replace m.2 [req] = .ok r) ∧
         (∃ g, m.1.paapi = some g ∧ ∃ out, g [m.2, req] = .ok out)) :
    ∃ ts, buildTasks req ms = .ok ts := by
  induction ms with
  | nil => exact ⟨[], rfl⟩
  | cons m ms ih =>
      obtain ⟨⟨resp, hresp⟩, ⟨g, hg, out, hout⟩⟩ := h m (List.mem_cons_self m ms)
      obtain ⟨ts, hts⟩ := ih (fun m2 h2 => h m2 (List.mem_cons_of_mem m h2))
      refine ⟨((lookupField m.1.options "delay").getD JVal.undefined,
               Action.deliver resp out m.2) :: ts, ?_⟩
      simp only [buildTasks_cons, hresp, hg, hout, hts, exceptOkBind]
      rfl

theorem intercept_safeRun (defs : List RuleDef) (bs : List JVal)
    (rfs : List (String × JVal))
    (hdefs : ∀ d ∈ defs, SafeRuleDef d) (hbs : ∀ b ∈ bs, NonNullish b) :
    ∃ res, intercept (compileRules defs) (some bs) (JVal.obj rfs) = .ok res := by
  have hrules : ∀ r ∈ compileRules defs, ∃ d, (∃ m, r = compileRule d m) ∧ SafeRuleDef d := by
    intro r hr
    obtain ⟨d, hd, m, hm⟩ := mem_compileRulesFrom r 1 defs hr
    exact ⟨d, ⟨m, hm⟩, hdefs d hd⟩
  obtain ⟨⟨ms, rem⟩, hall⟩ : ∃ out,
      matchAll (compileRules defs) bs (JVal.obj rfs) = .ok out := by
    apply matchAll_safe
    intro b hb
    apply matchRules_safe
    intro r hr
    obtain ⟨d, ⟨m, rfl⟩, hw, _⟩ := hrules r hr
    exact matcherPred_safe d.whenSpec b [JVal.obj rfs] hw (hbs b hb)
  have hmem := matchAll_mem _ bs _ ms rem hall
  obtain ⟨ts, hts⟩ : ∃ ts, buildTasks (JVal.obj rfs) ms = .ok ts := by
    apply buildTasks_safe
    intro m hm
    obtain ⟨hr, hb⟩ := hmem m hm
    obtain ⟨d, ⟨n, hdn⟩, _, hp⟩ := hrules m.1 hr
    constructor
    · rw [hdn]
      exact replacerGen_safe d.thenSpec m.2 [JVal.obj rfs] (hbs m.2 hb)
    · obtain ⟨g, hg, hout⟩ := paapiGen_safe _ hp
      refine ⟨g, ?_, hout [m.2, JVal.obj rfs]⟩
      rw [hdn]
      exact hg
  by_cases hlen : 0 < ms.length
  · exact ⟨(⟨rem, JVal.obj (setKeyFields rfs "bids" (JVal.arr rem))⟩,
            ⟨ms.length, JVal.obj (setKeyFields rfs "bids" (JVal.arr rem)), ts⟩),
      by simp only [intercept_someBids, hall, exceptOkBind, if_pos hlen, hts]; rfl⟩
  · exact ⟨(⟨bs, JVal.obj rfs⟩, ⟨0, JVal.obj rfs, [(JVal.num 0, Action.fireDone)]⟩),
      by simp only [intercept_someBids, hall, exceptOkBind, if_neg hlen]; rfl⟩

/-! ## Remaining helper lemmas -/

theorem get_compileRules (defs : List RuleDef) (i : Nat)
    (hi : i < (compileRules defs).length) :
    (compileRules defs).get ⟨i, hi⟩ =
      compileRule (defs.get ⟨i, by
        have hl := length_compileRulesFrom 1 defs
        rw [show (compileRules defs).length = (compileRulesFrom 1 defs).length from rfl,
          hl] at hi
        exact hi⟩) (1 + i) :=
  get_compileRulesFrom defs 1 i hi

theorem replacerGen_eq_finish (spec : ThenSpec) (h : spec ≠ ThenSpec.nullSpec) :
    replacerGen spec = replacerFinish spec := by
  cases spec with
  | nullSpec => exact absurd rfl h
  | emptySpec => rfl
  | fnSpec f => rfl
  | objSpec fs => rfl
  | arrSpec es => rfl
  | invalid v => rfl

theorem responseDefaultsCore_banner_default (bfs : List (String × JVal))
    (hmt : truthy ((lookupField bfs "mediaType").getD JVal.undefined) = false)
    (hmts : lookupField bfs "mediaTypes" = none) :
    getField (responseDefaultsCore (JVal.obj bfs)) "width" = some (JVal.num 300) ∧
    getField (responseDefaultsCore (JVal.obj bfs)) "height" = some (JVal.num 250) := by
  unfold responseDefaultsCore
  simp [chainGet, hmts, hmt, coalesce, jKeysD, lookupField, jsStrictEq, BANNER, VIDEO,
    optIdx, getField]

/-! ## Concrete fixtures used by witnesses and counterexamples -/

def bidW : JVal := JVal.obj [("bidId", JVal.str "b1")]
def bidW2 : JVal := JVal.obj [("bidId", JVal.str "b2")]
def bidMtW : JVal := JVal.obj [("bidId", JVal.str "b1"), ("mediaType", JVal.str "banner")]
def reqW : JVal := JVal.obj [("bids", JVal.arr [JVal.obj [("bidId", JVal.str "b1")]])]
def cpm999 : ℚ := (999 : ℚ) / 100

def dAlwaysW : RuleDef :=
  ⟨WhenSpec.fnSpec (fun _ _ => JVal.bool true), ThenSpec.emptySpec, none, none⟩
def dNullThenW : RuleDef :=
  ⟨WhenSpec.fnSpec (fun _ _ => JVal.bool true), ThenSpec.nullSpec, none,
   some (PaapiSpec.arrSpec [JVal.obj [("seller", JVal.str "x")]])⟩
def dCpmW : RuleDef :=
  ⟨WhenSpec.objSpec [], ThenSpec.objSpec [("cpm", ThenNode.fn (fun _ => JVal.num cpm999))],
   none, none⟩
def dMatchB1W : RuleDef :=
  ⟨WhenSpec.objSpec [("bidId", MatchNode.scalar (JVal.str "b1"))], ThenSpec.emptySpec,
   none, none⟩
def dNoMatchW : RuleDef :=
  ⟨WhenSpec.objSpec [("bidId", MatchNode.scalar (JVal.str "zzz"))], ThenSpec.emptySpec,
   none, none⟩
def dBadW : RuleDef :=
  ⟨WhenSpec.invalid (JVal.num 5), ThenSpec.invalid (JVal.num 7), none, none⟩

def respMtW : JVal :=
  match (compileRule dAlwaysW 1).replace bidMtW [] with
  | .ok r => r
  | .error _ => JVal.null

def respW1 : JVal :=
  match replacerGen ThenSpec.emptySpec bidW [] with
  | .ok r => r
  | .error _ => JVal.null

def respCpmW : JVal :=
  match (compileRule dCpmW 1).replace bidW [] with
  | .ok r => r
  | .error _ => JVal.null

def resW3 : Except JsErr (Outcome × Schedule) :=
  intercept (compileRules [dAlwaysW]) (some [bidW]) reqW

def outW3 : Outcome :=
  match resW3 with
  | .ok (o, _) => o
  | .error _ => ⟨[], JVal.null⟩

def schedW3 : Schedule :=
  match resW3 with
  | .ok (_, s) => s
  | .error _ => ⟨0, JVal.null, []⟩

def resW5 : Except JsErr (List (Rule × JVal) × List JVal) :=
  matchAll (compileRules [dMatchB1W]) [bidW, bidW2] reqW

def msW5 : List (Rule × JVal) :=
  match resW5 with
  | .ok (ms, _) => ms
  | .error _ => []

def remW5 : List JVal :=
  match resW5 with
  | .ok (_, rem) => rem
  | .error _ => []

def gW : List JVal → Except JsErr (List JVal) :=
  fun _ => wrapConfigs (JVal.arr [JVal.obj [("seller", JVal.str "x")]])

def cfgsW : List JVal := [JVal.obj [("config", JVal.obj [("seller", JVal.str "x")])]]

/-! ## Claim theorems -/

/-- C1 (amended): a compiled rule's generated response is `null` exactly
when the rule's `then` specification is explicitly `null`; otherwise it
is an object carrying at least the `requestId` field and the synthetic
marker `isDebug = true`.  The default `width`/`height` fields are present
whenever the bid has no truthy `mediaType` of its own and declares no
`mediaTypes` capabilities (the banner fallback size applies); a bid whose
`mediaType` is already set gets no default size (see the
counterexample). -/
theorem c1_replace_defaulted_response :
    (∀ (d : RuleDef) (no : Nat) (bid : JVal) (args : List JVal),
      d.thenSpec = ThenSpec.nullSpec →
      (compileRule d no).replace bid args = .ok JVal.null) ∧
    (∀ (spec : ThenSpec) (bid : JVal) (args : List JVal) (r : JVal),
      spec ≠ ThenSpec.nullSpec → replacerGen spec bid args = .ok r →
      isObjV r = true ∧ getField r "isDebug" = some (JVal.bool true) ∧
        (getField r "requestId").isSome = true) ∧
    (∀ (bfs : List (String × JVal)) (spec : ThenSpec) (args : List JVal) (r : JVal),
      spec ≠ ThenSpec.nullSpec →
      truthy ((lookupField bfs "mediaType").getD JVal.undefined) = false →
      lookupField bfs "mediaTypes" = none →
      replacerGen spec (JVal.obj bfs) args = .ok r →
      (getField r "width").isSome = true ∧ (getField r "height").isSome = true) := by
  refine ⟨?_, ?_, ?_⟩
  · intro d no bid args hnull
    show replacerGen d.thenSpec bid args = .ok JVal.null
    rw [hnull]
    rfl
  · intro spec bid args r hne h
    rw [replacerGen_eq_finish spec hne] at h
    obtain ⟨h1, h2, h3, _⟩ := replacerFinish_props spec bid args r h
    exact ⟨h1, h2, h3⟩
  · intro bfs spec args r hne hmt hmts h
    rw [replacerGen_eq_finish spec hne] at h
    obtain ⟨_, _, _, hpres⟩ := replacerFinish_props spec (JVal.obj bfs) args r h
    obtain ⟨hw, hh⟩ := responseDefaultsCore_banner_default bfs hmt hmts
    constructor
    · exact hpres "width" (by intro he; exact absurd he (by decide))
        (by rw [hw]; rfl)
    · exact hpres "height" (by intro he; exact absurd he (by decide))
        (by rw [hh]; rfl)

/-- C1 witness: for a bid with no `mediaType` and no `mediaTypes`, the
empty-template response carries the default `width`/`height`. -/
theorem c1_witness :
    (getField respW1 "width").isSome = true ∧ (getField respW1 "height").isSome = true :=
  (c1_replace_defaulted_response).2.2 [("bidId", JVal.str "b1")] ThenSpec.emptySpec []
    respW1 (fun h => ThenSpec.noConfusion h) rfl rfl rfl

/-- C1 counterexample: for a bid that already carries `mediaType`, the
generated response is an object (not `null`) with no `width` and no
`height` field, contradicting the claim that every non-`null` response
contains `width` and `height`. -/
theorem c1_counterexample :
    (compileRule dAlwaysW 1).replace bidMtW [] = .ok respMtW ∧
    isObjV respMtW = true ∧
    getField respMtW "width" = none ∧ getField respMtW "height" = none :=
  ⟨rfl, rfl, rfl, rfl⟩

/-- C2 (amended): a `when` definition that is neither a function nor
`typeof 'object'` compiles to a logged error and an always-`false`
predicate; an invalid `then` definition compiles to a logged error and
the empty override template; an invalid `paapi` definition is logged.
With every rule's `when` a function, a flat object matcher or such an
invalid scalar, and every rule's `paapi` well formed (array or function
of non-nullish configs, or absent), `intercept` on a batch of
non-nullish bids under an object bid request completes without any
exception.  (A `null` `when` or an invalid `paapi` on a matching rule
does throw — see the counterexample.) -/
theorem c2_malformed_rules_graceful :
    (∀ (v : JVal) (c : JVal) (args : List JVal),
      matcherPred (WhenSpec.invalid v) c args = .ok false) ∧
    (∀ (v : JVal) (no : Nat), matcherLogs (WhenSpec.invalid v) no = [LogEntry.errorWhen no]) ∧
    (∀ (v : JVal) (args : List JVal), evalOverride (ThenSpec.invalid v) args = JVal.obj []) ∧
    (∀ (v : JVal) (no : Nat), replacerLogs (ThenSpec.invalid v) no = [LogEntry.errorThen no]) ∧
    (∀ (v : JVal) (no : Nat), paapiLogs (PaapiSpec.invalid v) no = [LogEntry.errorPaapi no]) ∧
    (∀ (defs : List RuleDef) (bs : List JVal) (rfs : List (String × JVal)),
      (∀ d ∈ defs, SafeRuleDef d) → (∀ b ∈ bs, NonNullish b) →
      ∃ res, intercept (compileRules defs) (some bs) (JVal.obj rfs) = .ok res) :=
  ⟨fun _ _ _ => rfl, fun _ _ => rfl, fun _ _ => rfl, fun _ _ => rfl, fun _ _ => rfl,
   fun defs bs rfs h1 h2 => intercept_safeRun defs bs rfs h1 h2⟩

/-- C2 witness: a rule set containing a rule with an invalid scalar
`when` and an invalid scalar `then` still lets `intercept` run to
completion. -/
theorem c2_witness :
    ∃ res, intercept (compileRules [dBadW]) (some [bidW]) (JVal.obj []) = .ok res :=
  c2_malformed_rules_graceful.2.2.2.2.2 [dBadW] [bidW] []
    (by
      intro d hd
      rw [List.mem_singleton] at hd
      subst hd
      exact ⟨trivial, fun c hc => absurd hc (List.not_mem_nil c)⟩)
    (by
      intro b hb
      rw [List.mem_singleton] at hb
      subst hb
      exact ⟨fun h => JVal.noConfusion h, fun h => JVal.noConfusion h⟩)

/-- C2 counterexample: a rule whose `when` is `null` passes the source's
`typeof` check, so its predicate reaches `Object.entries(null)` and the
`TypeError` propagates out of `intercept` — the claim that a malformed
(including `null`) `when` is only logged and replaced by a safe default
is false. -/
theorem c2_counterexample :
    intercept (compileRules [⟨WhenSpec.nullSpec, ThenSpec.emptySpec, none, none⟩])
      (some [bidW]) reqW = .error JsErr.typeError := rfl

/-- C3: whenever `intercept` returns with a non-empty match set, running
the scheduled deliveries in any firing order (hence under any assignment
of per-rule delays) produces `done` exactly once, strictly after every
delivery's `addBid`/`addPaapiConfig` side effects: the trace is a prefix
without `done` followed by a single final `done`. -/
theorem c3_done_fires_once_after_all_deliveries (rules : List Rule)
    (bidsArg : Option (List JVal)) (req : JVal) (out : Outcome) (sched : Schedule)
    (ts : List (JVal × Action))
    (h : intercept rules bidsArg req = .ok (out, sched))
    (hpos : 0 < sched.required)
    (hperm : ts.Perm sched.tasks) :
    ∃ pre, runSched sched.required sched.reqAtFiring ts 0 = pre ++ [Event.done] ∧
      Event.done ∉ pre := by
  obtain ⟨hlen, hdel⟩ := intercept_sched rules bidsArg req out sched h hpos
  have hlen2 : ts.length = sched.required := by rw [hperm.length_eq, hlen]
  refine runSched_deliver sched.required sched.reqAtFiring ts 0
    (fun t ht => hdel t (hperm.subset ht)) (by omega) ?_
  intro he
  rw [he] at hlen2
  simp only [List.length_nil] at hlen2
  omega

/-- C3 witness: a one-rule, one-bid interception; running its schedule
yields the delivery events followed by a single final `done`. -/
theorem c3_witness :
    ∃ pre, runSched schedW3.required schedW3.reqAtFiring schedW3.tasks 0 =
      pre ++ [Event.done] ∧ Event.done ∉ pre :=
  c3_done_fires_once_after_all_deliveries (compileRules [dAlwaysW]) (some [bidW]) reqW
    outW3 schedW3 schedW3.tasks rfl (by decide) (List.Perm.refl _)

/-- C4: `match` returns the first rule in ordinal (authoring) order whose
predicate returns `true` — the returned rule sits at index `i` with
ordinal `i + 1`, its predicate returned `true`, and every earlier rule's
predicate returned `false`; when no predicate returns `true`, `match`
returns nothing. -/
theorem c4_first_match_wins (defs : List RuleDef) (c : JVal) (args : List JVal)
    (res : Option Rule) (h : matchRules (compileRules defs) c args = .ok res) :
    (res = none → ∀ r ∈ compileRules defs, r.matchPred c args = .ok false) ∧
    (∀ r, res = some r → ∃ i, ∃ hi : i < (compileRules defs).length,
      (compileRules defs).get ⟨i, hi⟩ = r ∧ r.no = i + 1 ∧
      r.matchPred c args = .ok true ∧
      ∀ j, ∀ hj : j < i,
        ((compileRules defs).get ⟨j, Nat.lt_trans hj hi⟩).matchPred c args = .ok false) := by
  constructor
  · intro hres
    subst hres
    exact matchRules_ok_none _ c args h
  · intro r hres
    subst hres
    obtain ⟨i, hi, hget, htrue, hprev⟩ := matchRules_first _ c args r h
    refine ⟨i, hi, hget, ?_, htrue, hprev⟩
    rw [← hget, get_compileRules defs i hi]
    show 1 + i = i + 1
    omega

/-- C4 witness: with two always-matching rules, `match` returns the
first-authored one (ordinal 1). -/
theorem c4_witness :
    ∃ i, ∃ hi : i < (compileRules [dAlwaysW, dAlwaysW]).length,
      (compileRules [dAlwaysW, dAlwaysW]).get ⟨i, hi⟩ = compileRule dAlwaysW 1 ∧
      (compileRule dAlwaysW 1).no = i + 1 ∧
      (compileRule dAlwaysW 1).matchPred bidW [reqW] = .ok true ∧
      ∀ j, ∀ hj : j < i,
        ((compileRules [dAlwaysW, dAlwaysW]).get
          ⟨j, Nat.lt_trans hj hi⟩).matchPred bidW [reqW] = .ok false :=
  (c4_first_match_wins [dAlwaysW, dAlwaysW] bidW [reqW]
    (some (compileRule dAlwaysW 1)) rfl).2 (compileRule dAlwaysW 1) rfl

/-- C5: `matchAll` partitions its batch — the matched and unmatched
counts add up to the batch length, the matched bids are exactly the bids
on which `match` finds a rule (in input order), and the unmatched list is
exactly the rest (in input order); hence every input bid lands in exactly
one of the two outputs. -/
theorem c5_matchAll_partitions (rules : List Rule) (bs : List JVal) (req : JVal)
    (ms : List (Rule × JVal)) (rem : List JVal)
    (h : matchAll rules bs req = .ok (ms, rem)) :
    ms.length + rem.length = bs.length ∧
    ms.map Prod.snd = bs.filter (isMatchedB rules req) ∧
    rem = bs.filter (fun b => !(isMatchedB rules req b)) := by
  obtain ⟨h1, h2, h3⟩ := matchAll_parts rules bs req ms rem h
  exact ⟨h3, h1, h2⟩

/-- C5 witness: a two-bid batch against a rule matching only the first
bid partitions into one match and one unmatched bid. -/
theorem c5_witness :
    msW5.length + remW5.length = ([bidW, bidW2]).length ∧
    msW5.map Prod.snd = [bidW, bidW2].filter (isMatchedB (compileRules [dMatchB1W]) reqW) ∧
    remW5 = [bidW, bidW2].filter (fun b => !(isMatchedB (compileRules [dMatchB1W]) reqW b)) :=
  c5_matchAll_partitions (compileRules [dMatchB1W]) [bidW, bidW2] reqW msW5 remW5 rfl

/-- C6: a rule compiled from an explicitly-`null` `then` specification
generates the `null` response for every bid; the delivery scheduled for a
bid it matches carries the `null` response and the generator's configs,
emits no `addBid` event, emits one `addPaapiConfig` event per config, and
still signals one unit of completion toward `done` (the latch counter
advances by one). -/
theorem c6_null_then_suppresses_addBid (d : RuleDef) (no : Nat)
    (bid req reqv delay : JVal) (cfgs : List JVal)
    (g : List JVal → Except JsErr (List JVal)) (rest : List (JVal × Action))
    (required c : Nat) (ms : List (Rule × JVal)) (ts : List (JVal × Action))
    (hnull : d.thenSpec = ThenSpec.nullSpec)
    (hg : (compileRule d no).paapi = some g)
    (hcfgs : g [bid, req] = .ok cfgs)
    (hrest : buildTasks req ms = .ok ts) :
    (compileRule d no).replace bid [req] = .ok JVal.null ∧
    deliveryEvents reqv JVal.null cfgs bid =
      cfgs.map (fun cfg => Event.addPaapiConfig cfg bid reqv) ∧
    (∀ r b2, Event.addBid r b2 ∉ deliveryEvents reqv JVal.null cfgs bid) ∧
    runSched required reqv ((delay, Action.deliver JVal.null cfgs bid) :: rest) c =
      cfgs.map (fun cfg => Event.addPaapiConfig cfg bid reqv) ++
        (if c + 1 = required then [Event.done] else []) ++
        runSched required reqv rest (c + 1) ∧
    buildTasks req ((compileRule d no, bid) :: ms) =
      .ok (((lookupField (compileRule d no).options "delay").getD JVal.undefined,
            Action.deliver JVal.null cfgs bid) :: ts) := by
  have hrepl : (compileRule d no).replace bid [req] = .ok JVal.null := by
    show replacerGen d.thenSpec bid [req] = .ok JVal.null
    rw [hnull]
    rfl
  refine ⟨hrepl, rfl, ?_, rfl, ?_⟩
  · intro r b2 hmem
    obtain ⟨x, _, he⟩ := List.mem_map.mp hmem
    exact Event.noConfusion he
  · simp only [buildTasks_cons, hrepl, hg, hcfgs, hrest, exceptOkBind]
    rfl

/-- C6 witness: a matching rule with `then: null` and one paapi config:
the response is `null`, the delivery carries only the paapi event, and
the latch advances. -/
theorem c6_witness :
    (compileRule dNullThenW 1).replace bidW [reqW] = .ok JVal.null ∧
    deliveryEvents reqW JVal.null cfgsW bidW =
      cfgsW.map (fun cfg => Event.addPaapiConfig cfg bidW reqW) ∧
    (∀ r b2, Event.addBid r b2 ∉ deliveryEvents reqW JVal.null cfgsW bidW) ∧
    runSched 1 reqW [(JVal.num 0, Action.deliver JVal.null cfgsW bidW)] 0 =
      cfgsW.map (fun cfg => Event.addPaapiConfig cfg bidW reqW) ++
        (if 0 + 1 = 1 then [Event.done] else []) ++ runSched 1 reqW [] (0 + 1) ∧
    buildTasks reqW [(compileRule dNullThenW 1, bidW)] =
      .ok [((lookupField (compileRule dNullThenW 1).options "delay").getD JVal.undefined,
            Action.deliver JVal.null cfgsW bidW)] :=
  c6_null_then_suppresses_addBid dNullThenW 1 bidW reqW reqW (JVal.num 0) cfgsW gW []
    1 0 [] [] rfl rfl rfl rfl

/-- C7: the synthesized response is the response defaults deep-merged
with the evaluated override (then post-processed and stamped): a
non-object override value at a key wins over the default, a default key
absent from the override is left unchanged, and concretely the override
`cpm: () => 9.99` yields `cpm = 9.99` with the default `width = 300` and
`height = 250` untouched. -/
theorem c7_merge_precedence :
    (∀ (spec : ThenSpec) (bid : JVal) (args : List JVal) (r : JVal),
      replacerFinish spec bid args = .ok r →
      ∃ resp, responseDefaults bid = .ok resp ∧
        r = setKey (applyResolver bid (mergeDeep resp (evalOverride spec (bid :: args))))
              "isDebug" (JVal.bool true)) ∧
    (∀ (bs os : List (String × JVal)) (k : String) (w : JVal),
      lookupField os k = some w → isObjV w = false →
      getField (mergeDeep (JVal.obj bs) (JVal.obj os)) k = some w) ∧
    (∀ (bs os : List (String × JVal)) (k : String),
      lookupField os k = none →
      getField (mergeDeep (JVal.obj bs) (JVal.obj os)) k = lookupField bs k) ∧
    ((compileRule dCpmW 1).replace bidW [] = .ok respCpmW ∧
      getField respCpmW "cpm" = some (JVal.num cpm999) ∧
      getField respCpmW "width" = some (JVal.num 300) ∧
      getField respCpmW "height" = some (JVal.num 250)) :=
  ⟨replacerFinish_ok, getField_mergeDeep_override, getField_mergeDeep_no_override,
   rfl, rfl, rfl, rfl⟩

/-- C7 witness: a scalar override wins over the base at its key. -/
theorem c7_witness :
    getField (mergeDeep (JVal.obj [("a", JVal.num 1)]) (JVal.obj [("a", JVal.num 2)]))
      "a" = some (JVal.num 2) :=
  c7_merge_precedence.2.1 [("a", JVal.num 1)] [("a", JVal.num 2)] "a" (JVal.num 2) rfl rfl

/-- C8 (amended): for an array-valued `paapi` spec all of whose entries
are non-nullish, and for a function-valued spec whose result on the call
arguments is such an array (or `undefined`, yielding the empty list), the
compiled generator returns the normalized sequence: each entry with a key
outside `config`/`igb` is wrapped as `{config: entry}`, every other entry
(including the empty object and keyless scalars) passes through
unchanged.  (A nullish entry instead makes the generator throw — see the
counterexample.) -/
theorem c8_paapi_normalization :
    (∀ (cfgs : List JVal) (args : List JVal) (g : List JVal → Except JsErr (List JVal)),
      paapiGen (PaapiSpec.arrSpec cfgs) = some g → (∀ c ∈ cfgs, NonNullish c) →
      g args = .ok (cfgs.map wrapTotal)) ∧
    (∀ (f : List JVal → JVal) (args : List JVal) (g : List JVal → Except JsErr (List JVal))
       (cfgs : List JVal),
      paapiGen (PaapiSpec.fnSpec f) = some g → f args = JVal.arr cfgs →
      (∀ c ∈ cfgs, NonNullish c) → g args = .ok (cfgs.map wrapTotal)) ∧
    (∀ (f : List JVal → JVal) (args : List JVal) (g : List JVal → Except JsErr (List JVal)),
      paapiGen (PaapiSpec.fnSpec f) = some g → f args = JVal.undefined →
      g args = .ok []) := by
  refine ⟨?_, ?_, ?_⟩
  · intro cfgs args g hg hsafe
    obtain rfl := Option.some.inj hg
    exact wrapConfigs_arr cfgs hsafe
  · intro f args g cfgs hg harr hsafe
    obtain rfl := Option.some.inj hg
    show wrapConfigs (f args) = _
    rw [harr]
    exact wrapConfigs_arr cfgs hsafe
  · intro f args g hg hu
    obtain rfl := Option.some.inj hg
    show wrapConfigs (f args) = _
    rw [hu]
    rfl

/-- C8 witness: `{seller: 'x'}` normalizes to `{config: {seller: 'x'}}`
and a `{config, igb}`-shaped entry passes through unchanged. -/
theorem c8_witness :
    ∃ g, paapiGen (PaapiSpec.arrSpec
        [JVal.obj [("seller", JVal.str "x")],
         JVal.obj [("config", JVal.obj []), ("igb", JVal.arr [])]]) = some g ∧
      g [] = .ok
        [JVal.obj [("config", JVal.obj [("seller", JVal.str "x")])],
         JVal.obj [("config", JVal.obj []), ("igb", JVal.arr [])]] :=
  ⟨_, rfl, c8_paapi_normalization.1
    [JVal.obj [("seller", JVal.str "x")],
     JVal.obj [("config", JVal.obj []), ("igb", JVal.arr [])]] [] _ rfl
    (by
      intro c hc
      rcases List.mem_cons.mp hc with rfl | hc2
      · exact ⟨fun h => JVal.noConfusion h, fun h => JVal.noConfusion h⟩
      · rw [List.mem_singleton] at hc2
        subst hc2
        exact ⟨fun h => JVal.noConfusion h, fun h => JVal.noConfusion h⟩)⟩

/-- C8 counterexample: a `null` entry in an array-valued `paapi` spec
makes the compiled generator throw (`Object.keys(null)`), so its output
is not a normalized sequence — the claim fails for that spec. -/
theorem c8_counterexample :
    (paapiGen (PaapiSpec.arrSpec [JVal.null])).map (fun g => g []) =
      some (.error JsErr.typeError) := rfl

/-- C9: when no rule matches any bid of the batch, `intercept` returns
the original `bids` and `bidRequest` values unchanged and schedules a
single zero-delay task that does nothing but invoke `done`; running that
schedule fires `done` exactly once. -/
theorem c9_zero_match_fast_path (rules : List Rule) (bs : List JVal) (req : JVal)
    (h : ∀ b ∈ bs, matchRules rules b [req] = .ok none) :
    intercept rules (some bs) req =
      .ok (⟨bs, req⟩, ⟨0, req, [(JVal.num 0, Action.fireDone)]⟩) ∧
    runSched 0 req [(JVal.num 0, Action.fireDone)] 0 = [Event.done] := by
  constructor
  · have hall := matchAll_nomatch rules bs req h
    simp only [intercept_someBids, hall, exceptOkBind]
    rfl
  · rfl

/-- C9 witness: one bid, one non-matching rule: the outcome carries the
original bid list and request, and the schedule is the single immediate
`done`. -/
theorem c9_witness :
    intercept (compileRules [dNoMatchW]) (some [bidW]) reqW =
      .ok (⟨[bidW], reqW⟩, ⟨0, reqW, [(JVal.num 0, Action.fireDone)]⟩) ∧
    runSched 0 reqW [(JVal.num 0, Action.fireDone)] 0 = [Event.done] :=
  c9_zero_match_fast_path (compileRules [dNoMatchW]) [bidW] reqW
    (by
      intro b hb
      rw [List.mem_singleton] at hb
      subst hb
      rfl)

/-- C10: a `when` spec that is an empty object compiles to a predicate
that returns `true` for every candidate and context — the conjunction
over zero field checks is vacuously true. -/
theorem c10_empty_when_matches_all (c : JVal) (args : List JVal) :
    matcherPred (WhenSpec.objSpec []) c args = .ok true := rfl

end BidInterceptor
